import Mathlib

/-!
Verification of the PhoneBookClass repository (src/BaseClasses.py,
src/MainClasses.py): a record base class (`EntryBase`) whose legal
attribute names are assembled by walking the class hierarchy, and a
collection base class (`BookBase`) storing records with validated
insertion, conjunctive exact-match search, deep copy and positional
access.

The embedding is shallow:
  * Python's insertion-ordered `dict` is an association list
    `List (String × V)` whose update keeps the position of an existing
    key and appends a new one.
  * A record instance is a structure holding its computed attribute
    schema, its lock flag (`_can_set_any_attr` negated) and its `__dict__`.
  * Exceptions become `Except PyErr`; the error kinds follow the spec's
    taxonomy (each `TypeError` / `AttributeError` / `IndexError` raise
    site in the source is mapped to its kind).
  * For the deep-copy claim, records and mutable list values live in an
    explicit heap (addresses are indices, allocation appends), so that
    object identity and shared mutable state are expressible.
-/

/-- The error taxonomy of the specification.  Each constructor
corresponds to one raise site in `src/BaseClasses.py`. -/
inductive PyErr where
  | tooManyArguments
  | duplicateArgument
  | missingAttributes
  | unexpectedAttributes
  | forbiddenAttributeSet
  | unknownAttribute
  | indexOutOfRange
  | unexpectedError
deriving DecidableEq, Repr

/-- Membership test of a key in a Python dict (`k in d`). -/
def dictMem {V : Type} (d : List (String × V)) (k : String) : Bool :=
  d.any (fun p => p.1 = k)

/-- `d[k] = v` on a Python dict: overwrite in place when the key is
present, append otherwise (insertion order is preserved). -/
def dictInsert {V : Type} (d : List (String × V)) (k : String) (v : V) :
    List (String × V) :=
  if dictMem d k then d.map (fun p => if p.1 = k then (k, v) else p)
  else d ++ [(k, v)]

/-- `d.update(upd)` on Python dicts: insert the pairs of `upd` in order. -/
def dictUpdate {V : Type} (d upd : List (String × V)) : List (String × V) :=
  upd.foldl (fun acc p => dictInsert acc p.1 p.2) d

/-- `d.keys()` of a Python dict, in insertion order. -/
def dictKeys {V : Type} (d : List (String × V)) : List String :=
  d.map Prod.fst

/-- `dict(zip(ks, vs))`: pairs truncated to the shorter list, later
bindings of a repeated key overwriting earlier ones. -/
def dictOfZip {V : Type} (ks : List String) (vs : List V) :
    List (String × V) :=
  dictUpdate [] (List.zip ks vs)

/-- `EntryBase.__init__` (src/BaseClasses.py lines 31-58): bind the
positional values to schema attributes in schema order, reject excess
positional values, positional/keyword collisions, missing and unexpected
names, and on success seed `__dict__` with the merged bindings. -/
def entryInit {V : Type} (attributes : List String) (args : List V)
    (kwargs : List (String × V)) : Except PyErr (List (String × V)) :=
  if args.length > attributes.length then
    .error .tooManyArguments
  else
    let dict_args := dictOfZip attributes args
    if (dictKeys dict_args).filter (fun k => dictMem kwargs k) ≠ [] then
      .error .duplicateArgument
    else
      let merged := dictUpdate kwargs dict_args
      if attributes.toFinset ≠ (dictKeys merged).toFinset then
        if attributes.filter (fun a => ¬ dictMem merged a) ≠ [] then
          .error .missingAttributes
        else if (dictKeys merged).filter
            (fun k => ¬ attributes.contains k) ≠ [] then
          .error .unexpectedAttributes
        else
          .error .unexpectedError
      else
        .ok merged

/-- A record instance: its computed schema (`self.attributes`, set in
`__new__`), the negation of `_can_set_any_attr`, and its `__dict__`
restricted to the schema bindings. -/
structure Entry (V : Type) where
  attributes : List String
  locked : Bool
  vals : List (String × V)
deriving DecidableEq, Repr

/-- Constructing an instance: `__new__` stores the schema computed for
the class on the instance and clears `_can_set_any_attr`, then
`__init__` validates the arguments. -/
def entryMk {V : Type} (attributes : List String) (args : List V)
    (kwargs : List (String × V)) : Except PyErr (Entry V) :=
  (entryInit attributes args kwargs).map
    (fun d => { attributes := attributes, locked := true, vals := d })

/-- `EntryBase.__setattr__` (lines 62-68): permitted while unlocked or
when the name is in the schema, otherwise `AttributeError`
(`ForbiddenAttributeSet`). -/
def setattr {V : Type} (e : Entry V) (name : String) (value : V) :
    Except PyErr (Entry V) :=
  if ¬ e.locked ∨ e.attributes.contains name then
    .ok { e with vals := dictInsert e.vals name value }
  else
    .error .forbiddenAttributeSet

/-- `EntryBase.__getitem__` (lines 70-75): value lookup by name, failing
with `AttributeError` (`UnknownAttribute`) for a name outside the
schema; a schema name absent from `__dict__` also raises
`AttributeError` from `__getattribute__`. -/
def getitem {V : Type} (e : Entry V) (key : String) : Except PyErr V :=
  if e.attributes.contains key then
    match e.vals.lookup key with
    | some v => .ok v
    | none => .error .unknownAttribute
  else
    .error .unknownAttribute

/-!
### Schema composition

A concrete record type is a single-inheritance chain below `EntryBase`.
Each level either declares its own incremental `attributes` tuple or
declares nothing (inheriting the tuple of its nearest declaring
ancestor); a level is `some decl` or `none` accordingly, listed from the
most general level (the direct child of `EntryBase`) down to the
concrete type.

`_get_parent_hierarchy_with_attributes` keeps every base with
`hasattr(base, 'attributes')`.  Since `EntryBase` itself declares
`attributes = ()`, every class of the chain has the attribute (inherited
when not declared), so every level participates; `object` alone is
dropped.  `_get_all_attributes` then sums `base.attributes` over the
reversed hierarchy, where `base.attributes` resolves to the nearest
declaration at or above `base`.
-/

/-- The attribute tuple that attribute lookup resolves at one level:
`cur` is the tuple inherited from above, replaced when the level
declares its own. -/
def resolvedAttrs (cur : List String) (level : Option (List String)) :
    List String :=
  level.getD cur

/-- Sum of `base.attributes` over the chain below `EntryBase`, most
general level first, each level contributing the tuple it resolves. -/
def mroAttrSum (cur : List String) : List (Option (List String)) →
    List String
  | [] => []
  | level :: rest =>
    resolvedAttrs cur level ++ mroAttrSum (resolvedAttrs cur level) rest

/-- `EntryBase._get_all_attributes` (lines 17-20): `EntryBase` heads the
reversed hierarchy contributing `()`, then every level of the chain
contributes the tuple it resolves. -/
def getAllAttributes (chain : List (Option (List String))) : List String :=
  mroAttrSum [] chain

/-- The schema composition as the specification words it: only the
levels that themselves declare an attribute list participate, their
declarations concatenated most general first.  Stated for comparison
with `getAllAttributes`. -/
def specDeclaredSchema (chain : List (Option (List String))) :
    List String :=
  (chain.filterMap id).flatten

/-!
### The collection (`BookBase`)
-/

/-- A book: the bound record type's schema and the ordered entry list.
`attributes` is set in `BookBase.__new__` from
`ENTRY_TYPE._get_all_attributes()`. -/
structure Book (V : Type) where
  attributes : List String
  entries : List (Entry V)
deriving Repr

/-- `BookBase.add_contact` (lines 99-101): construct an entry of the
bound type and append it; a construction error propagates and nothing
is appended. -/
def addContact {V : Type} (b : Book V) (args : List V)
    (kwargs : List (String × V)) : Except PyErr (Book V) :=
  match entryMk b.attributes args kwargs with
  | .ok e => .ok { b with entries := b.entries ++ [e] }
  | .error err => .error err

/-- The inner loop of `BookBase.find`: criteria are checked in order,
`entry[kw]` may raise `UnknownAttribute`, and the first mismatch stops
the scan of this entry (`found = False; break`). -/
def entryFound {V : Type} [DecidableEq V] (e : Entry V) :
    List (String × V) → Except PyErr Bool
  | [] => .ok true
  | (kw, value) :: rest =>
    match getitem e kw with
    | .error err => .error err
    | .ok w => if w ≠ value then .ok false else entryFound e rest

/-- `BookBase.find` (lines 104-116): the ordered sublist of entries
matching every criterion; an error raised while matching an entry
propagates. -/
def find {V : Type} [DecidableEq V] (entries : List (Entry V))
    (kwargs : List (String × V)) : Except PyErr (List (Entry V)) :=
  match entries with
  | [] => .ok []
  | e :: rest =>
    match entryFound e kwargs with
    | .error err => .error err
    | .ok found =>
      match find rest kwargs with
      | .error err => .error err
      | .ok ms => .ok (if found then e :: ms else ms)

/-- Python list indexing, as used by `BookBase.__getitem__`
(lines 129-131): a negative index counts from the end, an index out of
range on either side raises `IndexError` (`IndexOutOfRange`). -/
def pyListGet {A : Type} (l : List A) (i : Int) : Except PyErr A :=
  let j : Int := if i < 0 then i + l.length else i
  if h : 0 ≤ j ∧ j < l.length then
    .ok (l.get ⟨j.toNat, by omega⟩)
  else
    .error .indexOutOfRange

/-!
### Heap model for `create_copy`

`BookBase.create_copy` (lines 119-121) returns `copy.deepcopy(self)`.
Sharing of mutable state is a property of object identity, so this part
of the development works over an explicit heap: record objects and
mutable list objects are addressed by index, allocation appends at the
end.  Attribute values are either immutable primitives or references to
mutable list objects, exhibiting one level of nested mutable structure
inside attribute values.  `copy.deepcopy` is modelled from its
documented semantics: it recursively clones the book's entry list,
every record object and every mutable object reachable from a record,
allocating fresh addresses.
-/

/-- An immutable primitive value (numbers, strings). -/
inductive Prim where
  | int (n : Int)
  | str (s : String)
deriving DecidableEq, Repr

/-- An attribute value in the heap model: a primitive, or a reference
to a mutable list object. -/
inductive AttrVal where
  | prim (p : Prim)
  | listRef (a : Nat)
deriving DecidableEq, Repr

/-- A record object's attribute bindings (`__dict__`). -/
structure RecObj where
  vals : List (String × AttrVal)
deriving DecidableEq, Repr

/-- The heap: record objects and mutable list objects, addressed by
index.  Allocation appends, so existing addresses keep their objects. -/
structure Heap where
  recs : List RecObj
  lists : List (List Prim)
deriving DecidableEq, Repr

/-- A book in the heap model: the addresses of its record objects in
insertion order. -/
structure HBook where
  entries : List Nat
deriving DecidableEq, Repr

/-- Deep copy of one attribute value: a primitive is immutable and kept,
a referenced list object is cloned at a fresh address. -/
def deepcopyVal (h : Heap) (v : AttrVal) : Heap × AttrVal :=
  match v with
  | .prim p => (h, .prim p)
  | .listRef a =>
    ({ h with lists := h.lists ++ [h.lists.getD a []] },
     .listRef h.lists.length)

/-- Deep copy of a record's attribute bindings, left to right. -/
def deepcopyVals (h : Heap) :
    List (String × AttrVal) → Heap × List (String × AttrVal)
  | [] => (h, [])
  | (k, v) :: rest =>
    let r1 := deepcopyVal h v
    let r2 := deepcopyVals r1.1 rest
    (r2.1, (k, r1.2) :: r2.2)

/-- Deep copy of the record object at address `a`: clone its attribute
values, then allocate the cloned record at a fresh address. -/
def deepcopyRec (h : Heap) (a : Nat) : Heap × Nat :=
  let r := deepcopyVals h (h.recs.getD a ⟨[]⟩).vals
  ({ r.1 with recs := r.1.recs ++ [⟨r.2⟩] }, r.1.recs.length)

/-- Deep copy of an entry list, in order. -/
def deepcopyEntries (h : Heap) : List Nat → Heap × List Nat
  | [] => (h, [])
  | a :: rest =>
    let r1 := deepcopyRec h a
    let r2 := deepcopyEntries r1.1 rest
    (r2.1, r1.2 :: r2.2)

/-- `BookBase.create_copy` in the heap model: `copy.deepcopy` of the
book clones the entry list and, recursively, every record and every
mutable value reachable from it. -/
def createCopy (h : Heap) (b : HBook) : Heap × HBook :=
  ((deepcopyEntries h b.entries).1, ⟨(deepcopyEntries h b.entries).2⟩)

/-- The value a reference denotes: dereferencing erases addresses, so
two structures are value-equal exactly when their views coincide. -/
inductive ValView where
  | prim (p : Prim)
  | list (xs : List Prim)
deriving DecidableEq, Repr

/-- View of one attribute value under a heap. -/
def viewVal (h : Heap) : AttrVal → ValView
  | .prim p => .prim p
  | .listRef a => .list (h.lists.getD a [])

/-- View of the record object at address `a`: its attribute names with
dereferenced values. -/
def viewRec (h : Heap) (a : Nat) : List (String × ValView) :=
  (h.recs.getD a ⟨[]⟩).vals.map (fun p => (p.1, viewVal h p.2))

/-- View of a whole book: the dereferenced contents of its records in
order. -/
def viewBook (h : Heap) (b : HBook) : List (List (String × ValView)) :=
  b.entries.map (viewRec h)

/-- Mutating an attribute of the record object at address `a` (the
heap effect of a permitted `record.name = value`). -/
def setRecAttr (h : Heap) (a : Nat) (name : String) (v : AttrVal) :
    Heap :=
  { h with recs := h.recs.set a ⟨dictInsert (h.recs.getD a ⟨[]⟩).vals name v⟩ }

/-- Mutating the contents of the mutable list object at address `a`
(the heap effect of in-place mutation of a nested list value). -/
def setListObj (h : Heap) (a : Nat) (xs : List Prim) : Heap :=
  { h with lists := h.lists.set a xs }

/-- The list-object addresses stored in a record's attribute values. -/
def recListAddrs (r : RecObj) : List Nat :=
  r.vals.filterMap
    (fun p => match p.2 with | .listRef a => some a | .prim _ => none)

/-- The list-object addresses reachable from a book's records. -/
def bookListAddrs (h : Heap) (b : HBook) : List Nat :=
  (b.entries.map (fun a => recListAddrs (h.recs.getD a ⟨[]⟩))).flatten

/-- Every address reachable from the book is allocated in the heap. -/
def wfBook (h : Heap) (b : HBook) : Prop :=
  ∀ a ∈ b.entries, a < h.recs.length ∧
    ∀ la ∈ recListAddrs (h.recs.getD a ⟨[]⟩), la < h.lists.length

instance (h : Heap) (b : HBook) : Decidable (wfBook h b) := by
  unfold wfBook; infer_instance

/-!
### Instance construction count

`EntryBase.__new__` (lines 23-28) runs
`instance.attributes = cls._get_all_attributes()` on every call, so
each construction performs one schema computation and stores the
result on the instance.  To make the computation count observable, the
model of `__new__` returns it alongside the stored schema.
-/

/-- One `EntryBase.__new__` call: the schema stored on the instance,
and the number of `_get_all_attributes` evaluations performed. -/
def newEntrySchema (chain : List (Option (List String))) :
    List String × Nat :=
  (getAllAttributes chain, 1)

/-- Constructing `n` instances of one concrete type in sequence: the
schemas the instances report, and the total number of schema
computations performed. -/
def constructInstances (chain : List (Option (List String))) :
    Nat → List (List String) × Nat
  | 0 => ([], 0)
  | n + 1 =>
    let (s, c) := newEntrySchema chain
    let (rest, crest) := constructInstances chain n
    (s :: rest, c + crest)

/-- `BookBase.__getitem__` (lines 129-131): `self.entries[key]`. -/
def bookGetitem {V : Type} (b : Book V) (i : Int) : Except PyErr (Entry V) :=
  pyListGet b.entries i

/-- The collection state after one `add_contact` call together with the
raised error, if any: the entry is appended only after its construction
returns, so an exception leaves the entry list as it was. -/
def runAddContact {V : Type} (b : Book V) (args : List V)
    (kwargs : List (String × V)) : Book V × Option PyErr :=
  match addContact b args kwargs with
  | .ok b1 => (b1, none)
  | .error err => (b, some err)

/-- A sequence of attribute assignments on a live instance: a failed
assignment raises and leaves the instance as it was, later assignments
continue on the same instance. -/
def applyOps {V : Type} (e : Entry V) (ops : List (String × V)) :
    Entry V :=
  ops.foldl (fun acc op =>
    match setattr acc op.1 op.2 with
    | .ok e1 => e1
    | .error _ => acc) e

/-- A constructed instance is well formed: it is locked and its
attribute-name set (the keys of its `__dict__`) is exactly its schema's
name set. -/
def entryWF {V : Type} (e : Entry V) : Prop :=
  e.locked = true ∧ (dictKeys e.vals).toFinset = e.attributes.toFinset

instance {V : Type} (e : Entry V) : Decidable (entryWF e) := by
  unfold entryWF; infer_instance

/-- Whether a record's value at each criterion name equals the
criterion value (the specification's conjunctive match). -/
def matchesAll {V : Type} [DecidableEq V] (e : Entry V)
    (criteria : List (String × V)) : Bool :=
  criteria.all (fun kv => decide (e.vals.lookup kv.1 = some kv.2))

/-- Every stored entry has the bound schema and holds a value for every
schema name. -/
def bookWF {V : Type} (attrs : List String)
    (entries : List (Entry V)) : Prop :=
  ∀ e ∈ entries, e.attributes = attrs ∧
    ∀ a ∈ attrs, (e.vals.lookup a).isSome = true

instance {V : Type} (attrs : List String) (entries : List (Entry V)) :
    Decidable (bookWF attrs entries) := by
  unfold bookWF; infer_instance

/-!
### Demonstration values

The two-entry phone book of the specification's scenario (schema
`(name, phone)`, entries for `ana` and `bob`), and a one-record book in
the heap model whose record has a nested mutable list value.
-/

def demoSchema : List String := ["name", "phone"]

def demoAna : Entry String :=
  { attributes := demoSchema, locked := true,
    vals := [("name", "ana"), ("phone", "1234")] }

def demoBob : Entry String :=
  { attributes := demoSchema, locked := true,
    vals := [("name", "bob"), ("phone", "5678")] }

def demoBook : Book String :=
  { attributes := demoSchema, entries := [demoAna, demoBob] }

def demoHeap : Heap :=
  { recs := [⟨[("name", .prim (.str "ana")), ("tags", .listRef 0)]⟩],
    lists := [[.int 1]] }

def demoHBook : HBook := ⟨[0]⟩

/-!
### Dictionary lemmas
-/

theorem dictMem_iff {V : Type} (d : List (String × V)) (k : String) :
    dictMem d k = true ↔ k ∈ dictKeys d := by
  simp [dictMem, dictKeys, List.any_eq_true, List.mem_map,
    decide_eq_true_eq]

theorem map_fst_if_replace {V : Type} (k : String) (v : V) :
    ∀ d : List (String × V),
      List.map Prod.fst (List.map (fun p => if p.1 = k then (k, v) else p) d)
        = List.map Prod.fst d
  | [] => rfl
  | p :: rest => by
    by_cases hp : p.1 = k
    · simp only [List.map_cons, if_pos hp, map_fst_if_replace k v rest]
      rw [hp]
    · simp only [List.map_cons, if_neg hp, map_fst_if_replace k v rest]

theorem dictKeys_dictInsert_of_mem {V : Type} (d : List (String × V))
    (k : String) (v : V) (h : k ∈ dictKeys d) :
    dictKeys (dictInsert d k v) = dictKeys d := by
  rw [dictInsert, if_pos ((dictMem_iff d k).2 h)]
  exact map_fst_if_replace k v d

theorem dictKeys_dictInsert_of_not_mem {V : Type} (d : List (String × V))
    (k : String) (v : V) (h : k ∉ dictKeys d) :
    dictKeys (dictInsert d k v) = dictKeys d ++ [k] := by
  rw [dictInsert, if_neg]
  · simp [dictKeys]
  · intro hc; exact h ((dictMem_iff d k).1 hc)

theorem mem_dictKeys_dictInsert {V : Type} (d : List (String × V))
    (k : String) (v : V) (x : String) :
    x ∈ dictKeys (dictInsert d k v) ↔ x ∈ dictKeys d ∨ x = k := by
  by_cases h : k ∈ dictKeys d
  · rw [dictKeys_dictInsert_of_mem d k v h]
    constructor
    · exact fun hx => Or.inl hx
    · rintro (hx | rfl)
      · exact hx
      · exact h
  · rw [dictKeys_dictInsert_of_not_mem d k v h]
    simp

theorem mem_dictKeys_dictUpdate {V : Type} (d upd : List (String × V))
    (x : String) :
    x ∈ dictKeys (dictUpdate d upd) ↔ x ∈ dictKeys d ∨ x ∈ dictKeys upd := by
  induction upd generalizing d with
  | nil => simp [dictUpdate, dictKeys]
  | cons p rest ih =>
    rw [dictUpdate, List.foldl_cons]
    have : List.foldl (fun acc q => dictInsert acc q.1 q.2)
        (dictInsert d p.1 p.2) rest
        = dictUpdate (dictInsert d p.1 p.2) rest := rfl
    rw [this, ih, mem_dictKeys_dictInsert]
    simp [dictKeys]
    tauto

theorem dictUpdate_disjoint {V : Type} (d upd : List (String × V))
    (hd : ∀ k ∈ dictKeys upd, k ∉ dictKeys d)
    (hn : (dictKeys upd).Nodup) :
    dictUpdate d upd = d ++ upd := by
  induction upd generalizing d with
  | nil => simp [dictUpdate]
  | cons p rest ih =>
    rw [dictUpdate, List.foldl_cons]
    have hpd : p.1 ∉ dictKeys d := hd p.1 (by simp [dictKeys])
    have hmem : dictMem d p.1 = false := by
      rw [Bool.eq_false_iff]
      intro hc; exact hpd ((dictMem_iff d p.1).1 hc)
    have hins : dictInsert d p.1 p.2 = d ++ [p] := by
      rw [dictInsert, hmem]; simp
    have hrest : List.foldl (fun acc q => dictInsert acc q.1 q.2)
        (dictInsert d p.1 p.2) rest
        = dictUpdate (d ++ [p]) rest := by rw [hins]; rfl
    rw [hrest, ih]
    · simp
    · intro k hk
      simp only [dictKeys, List.map_append, List.mem_append] at hk ⊢
      intro hc
      rcases hc with hc | hc
      · exact hd k (by simp [dictKeys, hk]) hc
      · simp only [List.map_cons, List.map_nil, List.mem_singleton] at hc
        subst hc
        simp only [dictKeys, List.map_cons, List.nodup_cons] at hn
        exact hn.1 hk
    · simp only [dictKeys, List.map_cons, List.nodup_cons] at hn
      exact hn.2

theorem dictKeys_zip {V : Type} (ks : List String) (vs : List V) :
    dictKeys (List.zip ks vs) = ks.take vs.length := by
  induction ks generalizing vs with
  | nil => simp [dictKeys]
  | cons k rest ih =>
    cases vs with
    | nil => simp [dictKeys]
    | cons v vrest => simp [dictKeys, List.zip_cons_cons] at ih ⊢; exact ih vrest

theorem dictOfZip_eq_zip {V : Type} (ks : List String) (vs : List V)
    (h : ks.Nodup) : dictOfZip ks vs = List.zip ks vs := by
  have := dictUpdate_disjoint ([] : List (String × V)) (List.zip ks vs)
    (by simp [dictKeys]) (by rw [dictKeys_zip]; exact h.sublist (List.take_sublist _ _))
  rw [dictOfZip, this]
  simp

theorem lookup_append_of_not_mem {V : Type} (d d2 : List (String × V))
    (k : String) (h : k ∉ dictKeys d) :
    (d ++ d2).lookup k = d2.lookup k := by
  induction d with
  | nil => simp
  | cons p rest ih =>
    cases p with
    | mk a b =>
      simp only [dictKeys, List.map_cons, List.mem_cons, not_or] at h
      have hba : (k == a) = false := by
        simp only [beq_eq_false_iff_ne, ne_eq]; exact h.1
      simp only [List.cons_append, List.lookup_cons, hba]
      exact ih (by simpa [dictKeys] using h.2)

theorem lookup_isSome_iff {V : Type} (d : List (String × V)) (k : String) :
    (d.lookup k).isSome = true ↔ k ∈ dictKeys d := by
  induction d with
  | nil => simp [dictKeys]
  | cons p rest ih =>
    cases p with
    | mk a b =>
      by_cases hk : k = a
      · simp [List.lookup_cons, hk, dictKeys]
      · have hba : (k == a) = false := by
          simp only [beq_eq_false_iff_ne, ne_eq]; exact hk
        simp only [List.lookup_cons, hba, dictKeys, List.map_cons,
          List.mem_cons]
        simp only [dictKeys] at ih
        rw [ih]
        constructor
        · exact fun hm => Or.inr hm
        · rintro (hc | hm)
          · exact absurd hc hk
          · exact hm

theorem lookup_mem_nodup {V : Type} (d : List (String × V)) (k : String)
    (v : V) (hn : (dictKeys d).Nodup) (hm : (k, v) ∈ d) :
    d.lookup k = some v := by
  induction d with
  | nil => simp at hm
  | cons p rest ih =>
    cases p with
    | mk a b =>
      simp only [dictKeys, List.map_cons, List.nodup_cons] at hn
      rcases List.mem_cons.1 hm with heq | hmem
      · rw [show a = k from (congrArg Prod.fst heq.symm),
          show b = v from (congrArg Prod.snd heq.symm)]
        simp
      · have hka : k ≠ a := by
          intro hc
          subst hc
          exact hn.1 (List.mem_map.2 ⟨(k, v), hmem, rfl⟩)
        have hba : (k == a) = false := by
          simp only [beq_eq_false_iff_ne, ne_eq]; exact hka
        simp only [List.lookup_cons, hba]
        exact ih hn.2 hmem

theorem lookup_dictInsert_self {V : Type} (d : List (String × V))
    (k : String) (v : V) : (dictInsert d k v).lookup k = some v := by
  by_cases h : k ∈ dictKeys d
  · rw [dictInsert, if_pos ((dictMem_iff d k).2 h)]
    induction d with
    | nil => simp [dictKeys] at h
    | cons p rest ih =>
      cases p with
      | mk a b =>
        by_cases hp : a = k
        · simp [hp]
        · have hba : (k == a) = false := by
            simp only [beq_eq_false_iff_ne, ne_eq]
            exact fun hc => hp hc.symm
          simp only [List.map_cons, if_neg hp, List.lookup_cons, hba]
          exact ih (by
            simp only [dictKeys, List.map_cons, List.mem_cons] at h
            rcases h with hc | hm
            · exact absurd hc.symm hp
            · exact hm)
  · rw [dictInsert, if_neg (fun hc => h ((dictMem_iff d k).1 hc))]
    rw [lookup_append_of_not_mem d [(k, v)] k h]
    simp

/-!
### Claim theorems: positional access (C9, C10)
-/

/-- C9: for a collection holding `n` entries, positional access at an
integer position `i` with `0 ≤ i < n` returns the record added
`(i+1)`-th in insertion order, and access at any position at or beyond
the stored entry count fails with `IndexOutOfRange`. -/
theorem bookGetitem_position_spec {V : Type} (b : Book V) (i : Int) :
    (0 ≤ i → ∀ h : i.toNat < b.entries.length,
      bookGetitem b i = .ok (b.entries.get ⟨i.toNat, h⟩)) ∧
    ((b.entries.length : Int) ≤ i →
      bookGetitem b i = .error .indexOutOfRange) := by
  constructor
  · intro h0 h
    rw [bookGetitem, pyListGet]
    simp only [if_neg (not_lt.2 h0)]
    rw [dif_pos (by constructor <;> omega)]
  · intro hge
    rw [bookGetitem, pyListGet]
    have h0 : (0 : Int) ≤ i := le_trans (by positivity) hge
    simp only [if_neg (not_lt.2 h0)]
    rw [dif_neg (by omega)]

/-- Witness for C9: in a two-entry book, position 0 returns the first
entry added and position 2 raises `IndexOutOfRange`. -/
theorem bookGetitem_position_spec_witness :
    bookGetitem demoBook 0 = .ok demoAna ∧
    bookGetitem demoBook 2 = .error .indexOutOfRange := by
  constructor
  · have := (bookGetitem_position_spec demoBook 0).1 (by decide)
      (by decide)
    simpa using this
  · exact (bookGetitem_position_spec demoBook 2).2 (by decide)

/-- C10: for a collection holding `n ≥ 1` entries and `1 ≤ i ≤ n`,
positional access at the negative position `-i` succeeds and returns
the entry at position `n - i`, rather than failing. -/
theorem bookGetitem_negative_index {V : Type} (b : Book V) (i : Nat)
    (h1 : 1 ≤ i) (h2 : i ≤ b.entries.length) :
    ∃ h : b.entries.length - i < b.entries.length,
      bookGetitem b (-(i : Int)) =
        .ok (b.entries.get ⟨b.entries.length - i, h⟩) := by
  have hlt : b.entries.length - i < b.entries.length := by omega
  refine ⟨hlt, ?_⟩
  rw [bookGetitem, pyListGet]
  simp only [if_pos (by omega : -(i : Int) < 0)]
  rw [dif_pos (by constructor <;> omega)]
  congr 1
  apply congrArg
  apply Fin.ext
  simp only
  omega

/-- Witness for C10: in the two-entry book, position `-1` returns the
second (last) entry. -/
theorem bookGetitem_negative_index_witness :
    bookGetitem demoBook (-1) = .ok demoBob := by
  obtain ⟨h, he⟩ := bookGetitem_negative_index demoBook 1 (by decide)
    (by decide)
  simpa using he

/-!
### Claim theorems: record lookup and lock invariant (C8, C3)
-/

/-- C8: for a locked, well-formed record, indexed lookup by a name in
the schema returns the attribute's current stored value, and lookup by
a name outside the schema fails with `UnknownAttribute`. -/
theorem getitem_schema_spec {V : Type} (e : Entry V) (key : String)
    (hwf : entryWF e) :
    (key ∈ e.attributes →
      ∃ v, e.vals.lookup key = some v ∧ getitem e key = .ok v) ∧
    (key ∉ e.attributes → getitem e key = .error .unknownAttribute) := by
  constructor
  · intro hk
    have hkeys : key ∈ dictKeys e.vals := by
      have := hwf.2
      have hmem : key ∈ e.attributes.toFinset := List.mem_toFinset.2 hk
      rw [← this] at hmem
      exact List.mem_toFinset.1 hmem
    obtain ⟨v, hv⟩ := Option.isSome_iff_exists.1
      ((lookup_isSome_iff e.vals key).2 hkeys)
    refine ⟨v, hv, ?_⟩
    rw [getitem, if_pos (List.elem_iff.2 hk), hv]
  · intro hk
    rw [getitem, if_neg]
    intro hc
    exact hk (List.elem_iff.1 hc)

/-- Witness for C8: in the demo record, `phone` reads back `1234` and
`email` raises `UnknownAttribute`. -/
theorem getitem_schema_spec_witness :
    getitem demoAna "phone" = .ok "1234" ∧
    getitem demoAna "email" = .error .unknownAttribute := by
  constructor
  · obtain ⟨v, hv, he⟩ := (getitem_schema_spec demoAna "phone"
      (by decide)).1 (by decide)
    have : v = "1234" := by
      have : some v = some "1234" := by rw [← hv]; decide
      exact Option.some.inj this
    rw [← this]; exact he
  · exact (getitem_schema_spec demoAna "email" (by decide)).2 (by decide)

/-- C3: for a constructed (locked, well-formed) record, assigning to a
name in the schema always succeeds and overwrites the stored value
while leaving the attribute-name set intact, assigning to a name
outside the schema always fails with `ForbiddenAttributeSet`, and no
sequence of assignments ever changes the attribute-name set. -/
theorem setattr_lock_invariant {V : Type} (e : Entry V)
    (hwf : entryWF e) :
    (∀ name value, name ∈ e.attributes →
      ∃ e1, setattr e name value = .ok e1 ∧
        e1.vals.lookup name = some value ∧
        e1.attributes = e.attributes ∧
        dictKeys e1.vals = dictKeys e.vals ∧ entryWF e1) ∧
    (∀ name value, name ∉ e.attributes →
      setattr e name value = .error .forbiddenAttributeSet) ∧
    (∀ ops, (applyOps e ops).attributes = e.attributes ∧
      dictKeys (applyOps e ops).vals = dictKeys e.vals) := by
  have key_of_attr : ∀ e1 : Entry V, entryWF e1 → ∀ n ∈ e1.attributes,
      n ∈ dictKeys e1.vals := by
    intro e1 h1 n hn
    have hmem : n ∈ e1.attributes.toFinset := List.mem_toFinset.2 hn
    rw [← h1.2] at hmem
    exact List.mem_toFinset.1 hmem
  have main : ∀ e1 : Entry V, entryWF e1 → ∀ name value,
      name ∈ e1.attributes →
      ∃ e2, setattr e1 name value = .ok e2 ∧
        e2.vals.lookup name = some value ∧
        e2.attributes = e1.attributes ∧
        dictKeys e2.vals = dictKeys e1.vals ∧ entryWF e2 := by
    intro e1 h1 name value hname
    refine ⟨{ e1 with vals := dictInsert e1.vals name value },
      ?_, ?_, rfl, ?_, ?_⟩
    · rw [setattr, if_pos (Or.inr (List.elem_iff.2 hname))]
    · exact lookup_dictInsert_self e1.vals name value
    · exact dictKeys_dictInsert_of_mem e1.vals name value
        (key_of_attr e1 h1 name hname)
    · refine ⟨h1.1, ?_⟩
      rw [dictKeys_dictInsert_of_mem e1.vals name value
        (key_of_attr e1 h1 name hname)]
      exact h1.2
  refine ⟨main e hwf, ?_, ?_⟩
  · intro name value hname
    rw [setattr, if_neg]
    rintro (hc | hc)
    · exact hc hwf.1
    · exact hname (List.elem_iff.1 hc)
  · intro ops
    suffices hind : ∀ (ops : List (String × V)) (e1 : Entry V), entryWF e1 →
        (applyOps e1 ops).attributes = e1.attributes ∧
        dictKeys (applyOps e1 ops).vals = dictKeys e1.vals ∧
        entryWF (applyOps e1 ops) by
      obtain ⟨ha, hb, _⟩ := hind ops e hwf
      exact ⟨ha, hb⟩
    intro ops
    induction ops with
    | nil => intro e1 h1; exact ⟨rfl, rfl, h1⟩
    | cons op rest ih =>
      intro e1 h1
      by_cases hname : op.1 ∈ e1.attributes
      · obtain ⟨e2, hset, _, hattr, hkeys, h2⟩ :=
          main e1 h1 op.1 op.2 hname
        have hstep : applyOps e1 (op :: rest) = applyOps e2 rest := by
          rw [applyOps, List.foldl_cons, hset]
          rfl
        rw [hstep]
        obtain ⟨ia, ib, ic⟩ := ih e2 h2
        exact ⟨ia.trans hattr, ib.trans hkeys, ic⟩
      · have hset : setattr e1 op.1 op.2 = .error .forbiddenAttributeSet := by
          rw [setattr, if_neg]
          rintro (hc | hc)
          · exact hc h1.1
          · exact hname (List.elem_iff.1 hc)
        have hstep : applyOps e1 (op :: rest) = applyOps e1 rest := by
          rw [applyOps, List.foldl_cons, hset]
          rfl
        rw [hstep]
        exact ih e1 h1

/-- Witness for C3: overwriting `phone` on the demo record succeeds and
the new value is read back; setting `email` fails with
`ForbiddenAttributeSet`; a mixed assignment sequence leaves the
attribute-name set unchanged. -/
theorem setattr_lock_invariant_witness :
    (∃ e1, setattr demoAna "phone" "99" = .ok e1 ∧
      e1.vals.lookup "phone" = some "99") ∧
    setattr demoAna "email" "x" = .error .forbiddenAttributeSet ∧
    dictKeys (applyOps demoAna
      [("phone", "7"), ("email", "x"), ("name", "eve")]).vals
      = dictKeys demoAna.vals := by
  refine ⟨?_, ?_, ?_⟩
  · obtain ⟨e1, hset, hlook, _, _, _⟩ :=
      (setattr_lock_invariant demoAna (by decide)).1 "phone" "99"
        (by decide)
    exact ⟨e1, hset, hlook⟩
  · exact (setattr_lock_invariant demoAna (by decide)).2.1 "email" "x"
      (by decide)
  · exact ((setattr_lock_invariant demoAna (by decide)).2.2
      [("phone", "7"), ("email", "x"), ("name", "eve")]).2

/-!
### Claim theorem: atomic insertion (C6)
-/

/-- C6: if construction of the new record succeeds, `add_contact`
appends it as the new last element with the stored entries unchanged
and in order; if construction fails, the same error propagates and the
collection is exactly as it was (no partial insertion). -/
theorem addContact_atomic {V : Type} (b : Book V) (args : List V)
    (kwargs : List (String × V)) :
    (∀ e, entryMk b.attributes args kwargs = .ok e →
      addContact b args kwargs =
        .ok { b with entries := b.entries ++ [e] } ∧
      runAddContact b args kwargs =
        ({ b with entries := b.entries ++ [e] }, none)) ∧
    (∀ err, entryMk b.attributes args kwargs = .error err →
      addContact b args kwargs = .error err ∧
      runAddContact b args kwargs = (b, some err)) := by
  constructor
  · intro e he
    have h1 : addContact b args kwargs =
        .ok { b with entries := b.entries ++ [e] } := by
      rw [addContact, he]
    exact ⟨h1, by rw [runAddContact, h1]⟩
  · intro err herr
    have h1 : addContact b args kwargs = .error err := by
      rw [addContact, herr]
    exact ⟨h1, by rw [runAddContact, h1]⟩

/-- Witness for C6: adding `('carl', '9')` to the demo book appends the
new entry after the existing two; adding three positional values fails
with `TooManyArguments` and leaves the book unchanged. -/
theorem addContact_atomic_witness :
    runAddContact demoBook ["carl", "9"] [] =
      ({ attributes := demoSchema,
         entries := [demoAna, demoBob,
           { attributes := demoSchema, locked := true,
             vals := [("name", "carl"), ("phone", "9")] }] }, none) ∧
    runAddContact demoBook ["a", "b", "c"] [] =
      (demoBook, some .tooManyArguments) := by
  constructor
  · have := ((addContact_atomic demoBook ["carl", "9"] []).1
      { attributes := demoSchema, locked := true,
        vals := [("name", "carl"), ("phone", "9")] } (by rfl)).2
    simpa [demoBook] using this
  · exact ((addContact_atomic demoBook ["a", "b", "c"] []).2
      .tooManyArguments (by rfl)).2

/-!
### Claim theorems: schema composition (C2) and per-type caching (C7)
-/

theorem mroAttrSum_all_declaring :
    ∀ (chain : List (Option (List String))) (cur : List String),
      (∀ l ∈ chain, l.isSome) →
      mroAttrSum cur chain = (chain.filterMap id).flatten
  | [], _, _ => rfl
  | level :: rest, cur, h => by
    obtain ⟨d, rfl⟩ := Option.isSome_iff_exists.1
      (h level (List.mem_cons_self _ _))
    simp only [mroAttrSum, resolvedAttrs, Option.getD_some,
      List.filterMap_cons, List.flatten_cons, id]
    rw [mroAttrSum_all_declaring rest d
      (fun l hl => h l (List.mem_cons_of_mem _ hl))]

/-- Counterexample to C2: for a three-level ancestry whose middle level
declares no attribute list, the computed schema is not the
concatenation of the declaring levels' lists — the non-declaring level
participates, contributing the tuple it inherits and duplicating it. -/
theorem getAllAttributes_nondeclaring_cex :
    getAllAttributes [some ["a", "b"], none, some ["d"]]
      = ["a", "b", "a", "b", "d"] ∧
    specDeclaredSchema [some ["a", "b"], none, some ["d"]]
      = ["a", "b", "d"] ∧
    getAllAttributes [some ["a", "b"], none, some ["d"]]
      ≠ specDeclaredSchema [some ["a", "b"], none, some ["d"]] := by
  refine ⟨rfl, rfl, ?_⟩
  decide

/-- C2 amended: every ancestor below `EntryBase` participates in the
schema, and when each level declares its own attribute list the
computed schema is exactly the concatenation of the declared lists,
most general ancestor first. -/
theorem getAllAttributes_all_declaring
    (chain : List (Option (List String)))
    (h : ∀ l ∈ chain, l.isSome) :
    getAllAttributes chain = specDeclaredSchema chain := by
  rw [getAllAttributes, specDeclaredSchema]
  exact mroAttrSum_all_declaring chain [] h

/-- Witness for the amended C2: the three-level ancestry declaring
`(a,b)`, `(c)`, `(d)` yields the schema `(a,b,c,d)`. -/
theorem getAllAttributes_all_declaring_witness :
    getAllAttributes [some ["a", "b"], some ["c"], some ["d"]]
      = ["a", "b", "c", "d"] := by
  rw [getAllAttributes_all_declaring _ (by decide)]
  rfl

/-- Counterexample to C7: constructing two instances of the
`(name, phone)` concrete type performs two schema computations — the
schema is recomputed by `__new__` at every construction, not computed
and cached once per type. -/
theorem schema_recomputed_per_instance_cex :
    (constructInstances [some ["name", "phone"]] 2).2 = 2 ∧
    (constructInstances [some ["name", "phone"]] 2).2 ≠ 1 := by
  decide

/-- C7 amended: the schema is recomputed at each instance construction
(one `_get_all_attributes` evaluation per instance) and stored on the
instance; the computation is deterministic, so every instance of a
concrete type reports the identical schema, fixed for the lifetime of
the process. -/
theorem schema_identical_across_instances
    (chain : List (Option (List String))) (n : Nat) :
    (constructInstances chain n).2 = n ∧
    ∀ s ∈ (constructInstances chain n).1, s = getAllAttributes chain := by
  induction n with
  | zero =>
    refine ⟨rfl, ?_⟩
    intro s hs
    simp [constructInstances] at hs
  | succ m ih =>
    constructor
    · show (constructInstances chain (m + 1)).2 = m + 1
      simp only [constructInstances, newEntrySchema]
      rw [ih.1]
      omega
    · intro s hs
      simp only [constructInstances, newEntrySchema, List.mem_cons] at hs
      rcases hs with rfl | hs
      · rfl
      · exact ih.2 s hs

/-!
### Claim theorem: the exact-argument-set law (C1)
-/

theorem lookup_append_of_mem {V : Type} (d d2 : List (String × V))
    (k : String) (h : k ∈ dictKeys d) :
    (d ++ d2).lookup k = d.lookup k := by
  induction d with
  | nil => simp [dictKeys] at h
  | cons p rest ih =>
    cases p with
    | mk a b =>
      by_cases hk : k = a
      · subst hk
        simp [List.lookup_cons]
      · have hba : (k == a) = false := by
          simp only [beq_eq_false_iff_ne, ne_eq]; exact hk
        simp only [List.cons_append, List.lookup_cons, hba]
        apply ih
        simp only [dictKeys, List.map_cons, List.mem_cons] at h
        rcases h with hc | hm
        · exact absurd hc hk
        · exact hm

theorem lookup_zip_get {V : Type} (ks : List String) (vs : List V)
    (h : ks.Nodup) (i : Nat) (h1 : i < vs.length) (h2 : i < ks.length) :
    (List.zip ks vs).lookup (ks.get ⟨i, h2⟩) = some (vs.get ⟨i, h1⟩) := by
  apply lookup_mem_nodup
  · rw [dictKeys_zip]
    exact h.sublist (List.take_sublist _ _)
  · have hz : i < (List.zip ks vs).length := by
      rw [List.length_zip]; omega
    have : (List.zip ks vs).get ⟨i, hz⟩ =
        (ks.get ⟨i, h2⟩, vs.get ⟨i, h1⟩) := by
      simp [List.getElem_zip]
    rw [← this]
    exact List.get_mem _ _ _

theorem get_mem_take {A : Type} (l : List A) (n i : Nat) (h1 : i < n)
    (h2 : i < l.length) : l.get ⟨i, h2⟩ ∈ l.take n := by
  have hlt : i < (l.take n).length := by
    rw [List.length_take]; omega
  have : (l.take n).get ⟨i, hlt⟩ = l.get ⟨i, h2⟩ := by
    simp [List.getElem_take]
  rw [← this]
  exact List.get_mem _ _ _

theorem entryInit_of_len_le {V : Type} (attributes : List String)
    (args : List V) (kwargs : List (String × V))
    (hlen : ¬ args.length > attributes.length) :
    entryInit attributes args kwargs =
      (if (dictKeys (dictOfZip attributes args)).filter
            (fun k => dictMem kwargs k) ≠ [] then
        .error .duplicateArgument
      else if attributes.toFinset ≠
          (dictKeys (dictUpdate kwargs (dictOfZip attributes args))).toFinset
          then
        if attributes.filter (fun a =>
            ¬ dictMem (dictUpdate kwargs (dictOfZip attributes args)) a)
            ≠ [] then
          .error .missingAttributes
        else if (dictKeys (dictUpdate kwargs
            (dictOfZip attributes args))).filter
            (fun k => ¬ attributes.contains k) ≠ [] then
          .error .unexpectedAttributes
        else
          .error .unexpectedError
      else
        .ok (dictUpdate kwargs (dictOfZip attributes args))) := by
  unfold entryInit
  rw [if_neg hlen]

/-- C1: construction succeeds iff the set of names bound positionally
(schema order) united with the keyword names equals the schema's name
set and no name is bound both ways; on success every schema attribute
holds its bound value; on failure the specific error kind is raised,
the conditions checked in the source's order: excess positional values
first, then positional/keyword collision, then missing names, then
unexpected names. -/
theorem entryInit_exact_argument_set_law {V : Type}
    (attributes : List String) (args : List V)
    (kwargs : List (String × V))
    (hA : attributes.Nodup) (hK : (dictKeys kwargs).Nodup) :
    ((∃ d, entryInit attributes args kwargs = .ok d) ↔
      (args.length ≤ attributes.length ∧
       (∀ k ∈ dictKeys kwargs, k ∉ attributes.take args.length) ∧
       (∀ k ∈ dictKeys kwargs, k ∈ attributes) ∧
       (∀ a ∈ attributes, a ∈ attributes.take args.length ∨
         a ∈ dictKeys kwargs))) ∧
    (∀ d, entryInit attributes args kwargs = .ok d →
      (∀ i (h1 : i < args.length) (h2 : i < attributes.length),
        d.lookup (attributes.get ⟨i, h2⟩) = some (args.get ⟨i, h1⟩)) ∧
      (∀ kv ∈ kwargs, d.lookup kv.1 = some kv.2)) ∧
    (attributes.length < args.length →
      entryInit attributes args kwargs = .error .tooManyArguments) ∧
    (args.length ≤ attributes.length →
      (∃ k ∈ dictKeys kwargs, k ∈ attributes.take args.length) →
      entryInit attributes args kwargs = .error .duplicateArgument) ∧
    (args.length ≤ attributes.length →
      (∀ k ∈ dictKeys kwargs, k ∉ attributes.take args.length) →
      (∃ a ∈ attributes, a ∉ attributes.take args.length ∧
        a ∉ dictKeys kwargs) →
      entryInit attributes args kwargs = .error .missingAttributes) ∧
    (args.length ≤ attributes.length →
      (∀ k ∈ dictKeys kwargs, k ∉ attributes.take args.length) →
      (∀ a ∈ attributes, a ∈ attributes.take args.length ∨
        a ∈ dictKeys kwargs) →
      (∃ k ∈ dictKeys kwargs, k ∉ attributes) →
      entryInit attributes args kwargs = .error .unexpectedAttributes) := by
  by_cases hlen : args.length > attributes.length
  · have hres : entryInit attributes args kwargs =
        .error .tooManyArguments := by
      unfold entryInit
      rw [if_pos hlen]
    refine ⟨?_, ?_, fun _ => hres, ?_, ?_, ?_⟩
    · constructor
      · rintro ⟨d, hd⟩
        rw [hres] at hd
        exact absurd hd (by simp)
      · rintro ⟨h1, _⟩
        omega
    · intro d hd
      rw [hres] at hd
      exact absurd hd (by simp)
    · intro h1 _
      omega
    · intro h1 _ _
      omega
    · intro h1 _ _ _
      omega
  · have hlen' : args.length ≤ attributes.length := not_lt.1 hlen
    have hstep := entryInit_of_len_le attributes args kwargs hlen
    have hzipkeys : dictKeys (dictOfZip attributes args)
        = attributes.take args.length := by
      rw [dictOfZip_eq_zip _ _ hA, dictKeys_zip]
    have hta_sub : ∀ x ∈ attributes.take args.length, x ∈ attributes :=
      fun x hx => List.take_subset _ _ hx
    have hdup_iff : ((dictKeys (dictOfZip attributes args)).filter
          (fun k => dictMem kwargs k) ≠ []) ↔
        ∃ k ∈ dictKeys kwargs, k ∈ attributes.take args.length := by
      rw [hzipkeys, ne_eq, List.filter_eq_nil_iff]
      push_neg
      constructor
      · rintro ⟨k, hk, hmem⟩
        exact ⟨k, (dictMem_iff _ _).1 (by simpa using hmem), hk⟩
      · rintro ⟨k, hk, hmem⟩
        exact ⟨k, hmem, by simpa using (dictMem_iff kwargs k).2 hk⟩
    by_cases hdup : ∃ k ∈ dictKeys kwargs,
        k ∈ attributes.take args.length
    · obtain ⟨k0, hk0, hk0t⟩ := hdup
      have hres : entryInit attributes args kwargs =
          .error .duplicateArgument := by
        rw [hstep, if_pos (hdup_iff.2 ⟨k0, hk0, hk0t⟩)]
      refine ⟨?_, ?_, ?_, fun _ _ => hres, ?_, ?_⟩
      · constructor
        · rintro ⟨d, hd⟩
          rw [hres] at hd
          exact absurd hd (by simp)
        · rintro ⟨_, hdis, _⟩
          exact absurd hk0t (hdis k0 hk0)
      · intro d hd
        rw [hres] at hd
        exact absurd hd (by simp)
      · intro h
        omega
      · intro _ hdis _
        exact absurd hk0t (hdis k0 hk0)
      · intro _ hdis _ _
        exact absurd hk0t (hdis k0 hk0)
    · have hdis : ∀ k ∈ dictKeys kwargs,
          k ∉ attributes.take args.length :=
        fun k hk hc => hdup ⟨k, hk, hc⟩
      have hnodup_zip : (dictKeys (List.zip attributes args)).Nodup := by
        rw [dictKeys_zip]
        exact hA.sublist (List.take_sublist _ _)
      have hmerged : dictUpdate kwargs (dictOfZip attributes args)
          = kwargs ++ List.zip attributes args := by
        rw [dictOfZip_eq_zip _ _ hA]
        apply dictUpdate_disjoint
        · intro k hk
          rw [dictKeys_zip] at hk
          intro hc
          exact hdup ⟨k, hc, hk⟩
        · exact hnodup_zip
      have hmk : ∀ x,
          x ∈ dictKeys (dictUpdate kwargs (dictOfZip attributes args)) ↔
          x ∈ attributes.take args.length ∨ x ∈ dictKeys kwargs := by
        intro x
        rw [mem_dictKeys_dictUpdate, hzipkeys]
        tauto
      have hndup : (dictKeys (dictOfZip attributes args)).filter
          (fun k => dictMem kwargs k) = [] := by
        by_contra hc
        exact hdup (hdup_iff.1 hc)
      have hfin : (attributes.toFinset =
            (dictKeys (dictUpdate kwargs
              (dictOfZip attributes args))).toFinset) ↔
          ∀ x, x ∈ attributes ↔
            x ∈ dictKeys (dictUpdate kwargs (dictOfZip attributes args)) := by
        simp only [Finset.ext_iff, List.mem_toFinset]
      have hmiss_iff : (attributes.filter (fun a =>
            ¬ dictMem (dictUpdate kwargs (dictOfZip attributes args)) a)
            ≠ []) ↔
          ∃ a ∈ attributes, a ∉ attributes.take args.length ∧
            a ∉ dictKeys kwargs := by
        rw [ne_eq, List.filter_eq_nil_iff]
        push_neg
        simp only [decide_eq_true_eq, dictMem_iff]
        constructor
        · rintro ⟨a, ha, hnm⟩
          refine ⟨a, ha, ?_, ?_⟩
          · intro hc
            exact hnm ((dictMem_iff _ _).2 ((hmk a).2 (Or.inl hc)))
          · intro hc
            exact hnm ((dictMem_iff _ _).2 ((hmk a).2 (Or.inr hc)))
        · rintro ⟨a, ha, h1, h2⟩
          refine ⟨a, ha, ?_⟩
          intro hc
          rcases (hmk a).1 ((dictMem_iff _ _).1 hc) with hc1 | hc2
          · exact h1 hc1
          · exact h2 hc2
      have hunex_iff : ((dictKeys (dictUpdate kwargs
            (dictOfZip attributes args))).filter
            (fun k => ¬ attributes.contains k) ≠ []) ↔
          ∃ k ∈ dictKeys kwargs, k ∉ attributes := by
        rw [ne_eq, List.filter_eq_nil_iff]
        push_neg
        simp only [decide_eq_true_eq]
        constructor
        · rintro ⟨k, hk, hna⟩
          have hkna : k ∉ attributes :=
            fun hm => hna (List.elem_iff.2 hm)
          rcases (hmk k).1 hk with h1 | h2
          · exact absurd (hta_sub k h1) hkna
          · exact ⟨k, h2, hkna⟩
        · rintro ⟨k, hk, hna⟩
          exact ⟨k, (hmk k).2 (Or.inr hk),
            fun hc => hna (List.elem_iff.1 hc)⟩
      by_cases hmiss : ∃ a ∈ attributes,
          a ∉ attributes.take args.length ∧ a ∉ dictKeys kwargs
      · have hfneq : attributes.toFinset ≠
            (dictKeys (dictUpdate kwargs
              (dictOfZip attributes args))).toFinset := by
          intro hc
          obtain ⟨a, ha, h1, h2⟩ := hmiss
          rcases (hmk a).1 ((hfin.1 hc a).1 ha) with hc1 | hc2
          · exact h1 hc1
          · exact h2 hc2
        have hres : entryInit attributes args kwargs =
            .error .missingAttributes := by
          rw [hstep, if_neg (fun hc => hc hndup), if_pos hfneq,
            if_pos (hmiss_iff.2 hmiss)]
        obtain ⟨a0, ha0, ha1, ha2⟩ := hmiss
        refine ⟨?_, ?_, ?_, ?_, fun _ _ _ => hres, ?_⟩
        · constructor
          · rintro ⟨d, hd⟩
            rw [hres] at hd
            exact absurd hd (by simp)
          · rintro ⟨_, _, _, hall⟩
            rcases hall a0 ha0 with hc | hc
            · exact (ha1 hc).elim
            · exact (ha2 hc).elim
        · intro d hd
          rw [hres] at hd
          exact absurd hd (by simp)
        · intro h
          omega
        · intro _ hex
          exact absurd hex hdup
        · intro _ _ hall _
          rcases hall a0 ha0 with hc | hc
          · exact (ha1 hc).elim
          · exact (ha2 hc).elim
      · by_cases hunex : ∃ k ∈ dictKeys kwargs, k ∉ attributes
        · have hfneq : attributes.toFinset ≠
              (dictKeys (dictUpdate kwargs
                (dictOfZip attributes args))).toFinset := by
            intro hc
            obtain ⟨k, hk, hkna⟩ := hunex
            exact hkna ((hfin.1 hc k).2 ((hmk k).2 (Or.inr hk)))
          have hmissf : attributes.filter (fun a =>
              ¬ dictMem (dictUpdate kwargs (dictOfZip attributes args)) a)
              = [] := by
            by_contra hc
            exact hmiss (hmiss_iff.1 hc)
          have hres : entryInit attributes args kwargs =
              .error .unexpectedAttributes := by
            rw [hstep, if_neg (fun hc => hc hndup), if_pos hfneq,
              if_neg (fun hc => hc hmissf), if_pos (hunex_iff.2 hunex)]
          obtain ⟨k0, hk0, hk0na⟩ := hunex
          refine ⟨?_, ?_, ?_, ?_, ?_, fun _ _ _ _ => hres⟩
          · constructor
            · rintro ⟨d, hd⟩
              rw [hres] at hd
              exact absurd hd (by simp)
            · rintro ⟨_, _, hka, _⟩
              exact (hk0na (hka k0 hk0)).elim
          · intro d hd
            rw [hres] at hd
            exact absurd hd (by simp)
          · intro h
            omega
          · intro _ hex
            exact absurd hex hdup
          · intro _ _ hex
            exact absurd hex hmiss
        · have hka : ∀ k ∈ dictKeys kwargs, k ∈ attributes := by
            intro k hk
            by_contra hc
            exact hunex ⟨k, hk, hc⟩
          have hall : ∀ a ∈ attributes,
              a ∈ attributes.take args.length ∨ a ∈ dictKeys kwargs := by
            intro a ha
            by_contra hc
            push_neg at hc
            exact hmiss ⟨a, ha, hc.1, hc.2⟩
          have hfeq : attributes.toFinset =
              (dictKeys (dictUpdate kwargs
                (dictOfZip attributes args))).toFinset := by
            rw [hfin]
            intro x
            constructor
            · intro hx
              exact (hmk x).2 (hall x hx)
            · intro hx
              rcases (hmk x).1 hx with hc | hc
              · exact hta_sub x hc
              · exact hka x hc
          have hres : entryInit attributes args kwargs =
              .ok (dictUpdate kwargs (dictOfZip attributes args)) := by
            rw [hstep, if_neg (fun hc => hc hndup),
              if_neg (fun hc => hc hfeq)]
          refine ⟨?_, ?_, ?_, ?_, ?_, ?_⟩
          · constructor
            · intro _
              exact ⟨hlen', hdis, hka, hall⟩
            · intro _
              exact ⟨_, hres⟩
          · intro d hd
            rw [hres] at hd
            have hdM : dictUpdate kwargs (dictOfZip attributes args) = d :=
              Except.ok.inj hd
            subst hdM
            constructor
            · intro i h1 h2
              have hainot : attributes.get ⟨i, h2⟩ ∉ dictKeys kwargs := by
                intro hc
                exact hdis _ hc (get_mem_take attributes args.length i h1 h2)
              rw [hmerged, lookup_append_of_not_mem _ _ _ hainot]
              exact lookup_zip_get attributes args hA i h1 h2
            · intro kv hkv
              have hkin : kv.1 ∈ dictKeys kwargs :=
                List.mem_map.2 ⟨kv, hkv, rfl⟩
              rw [hmerged, lookup_append_of_mem _ _ _ hkin]
              exact lookup_mem_nodup kwargs kv.1 kv.2 hK hkv
          · intro h
            omega
          · intro _ hex
            exact absurd hex hdup
          · intro _ _ hex
            exact absurd hex hmiss
          · intro _ _ _ hex
            exact absurd hex hunex

/-- Witness for C1: on the `(name, phone)` schema, `('ana', phone='1234')`
succeeds, three positional values raise `TooManyArguments`,
`('ana', '1', phone='2')` raises `DuplicateArgument`, `('ana')` raises
`MissingAttributes`, and `('ana', phone='1', email='x')` raises
`UnexpectedAttributes`. -/
theorem entryInit_exact_argument_set_law_witness :
    (∃ d, entryInit ["name", "phone"] ["ana"] [("phone", "1234")] =
      .ok d) ∧
    entryInit ["name", "phone"] ["ana", "1", "2"]
      ([] : List (String × String)) = .error .tooManyArguments ∧
    entryInit ["name", "phone"] ["ana", "1"] [("phone", "2")] =
      .error .duplicateArgument ∧
    entryInit ["name", "phone"] ["ana"]
      ([] : List (String × String)) = .error .missingAttributes ∧
    entryInit ["name", "phone"] ["ana"] [("phone", "1"), ("email", "x")] =
      .error .unexpectedAttributes := by
  refine ⟨?_, ?_, ?_, ?_, ?_⟩
  · exact (entryInit_exact_argument_set_law ["name", "phone"] ["ana"]
      [("phone", "1234")] (by decide) (by decide)).1.2
      ⟨by decide, by decide, by decide, by decide⟩
  · exact (entryInit_exact_argument_set_law ["name", "phone"]
      ["ana", "1", "2"] ([] : List (String × String))
      (by decide) (by decide)).2.2.1 (by decide)
  · exact (entryInit_exact_argument_set_law ["name", "phone"]
      ["ana", "1"] [("phone", "2")] (by decide) (by decide)).2.2.2.1
      (by decide) ⟨"phone", by decide, by decide⟩
  · exact (entryInit_exact_argument_set_law ["name", "phone"] ["ana"]
      ([] : List (String × String)) (by decide) (by decide)).2.2.2.2.1
      (by decide) (by decide) ⟨"phone", by decide, by decide, by decide⟩
  · exact (entryInit_exact_argument_set_law ["name", "phone"] ["ana"]
      [("phone", "1"), ("email", "x")] (by decide)
      (by decide)).2.2.2.2.2 (by decide) (by decide) (by decide)
      ⟨"email", by decide, by decide⟩


/-!
### Claim theorems: conjunctive search (C4)
-/

/-- Counterexample to C4: `find` checks criteria in order and stops at
the first mismatch, so a criterion name outside the schema is not
looked up for a record that already failed an earlier criterion: with
the stored `ana` record, criteria `name='bob', bogus='x'` return the
empty list instead of propagating `UnknownAttribute`; likewise on an
empty collection an unknown criterion raises nothing. -/
theorem find_unknown_criterion_cex :
    ("bogus" ∉ demoAna.attributes) ∧
    find [demoAna] [("name", "bob"), ("bogus", "x")] = .ok [] ∧
    find ([] : List (Entry String)) [("bogus", "x")] = .ok [] := by
  exact ⟨by decide, rfl, rfl⟩

theorem getitem_of_lookup {V : Type} (e : Entry V) (kw : String)
    (w : V) (hkw : kw ∈ e.attributes)
    (hlook : e.vals.lookup kw = some w) : getitem e kw = .ok w := by
  unfold getitem
  rw [if_pos (List.elem_iff.2 hkw), hlook]

theorem entryFound_cons_of_lookup {V : Type} [DecidableEq V]
    (e : Entry V) (kw : String) (v w : V) (rest : List (String × V))
    (hkw : kw ∈ e.attributes) (hw : e.vals.lookup kw = some w) :
    entryFound e ((kw, v) :: rest) =
      if w = v then entryFound e rest else .ok false := by
  rw [entryFound, getitem_of_lookup e kw w hkw hw]
  show (if w ≠ v then (Except.ok false : Except PyErr Bool)
    else entryFound e rest) = _
  by_cases hv : w = v
  · rw [if_neg (by simpa using hv), if_pos hv]
  · rw [if_pos hv, if_neg hv]

theorem matchesAll_cons_of_lookup {V : Type} [DecidableEq V]
    (e : Entry V) (kw : String) (v w : V) (rest : List (String × V))
    (hw : e.vals.lookup kw = some w) :
    matchesAll e ((kw, v) :: rest) =
      if w = v then matchesAll e rest else false := by
  rw [matchesAll, List.all_cons, hw]
  by_cases hv : w = v
  · rw [if_pos hv,
      decide_eq_true (congrArg some hv), Bool.true_and]
    rfl
  · rw [if_neg hv,
      decide_eq_false (fun hc => hv (Option.some.inj hc)),
      Bool.false_and]

theorem entryFound_all_known {V : Type} [DecidableEq V] (e : Entry V)
    (criteria : List (String × V))
    (hin : ∀ kv ∈ criteria, kv.1 ∈ e.attributes)
    (hwf : ∀ a ∈ e.attributes, (e.vals.lookup a).isSome = true) :
    entryFound e criteria = .ok (matchesAll e criteria) := by
  induction criteria with
  | nil => rfl
  | cons kv rest ih =>
    cases kv with
    | mk kw v =>
      have hkw : kw ∈ e.attributes :=
        hin (kw, v) (List.mem_cons_self _ _)
      obtain ⟨w, hw⟩ := Option.isSome_iff_exists.1 (hwf kw hkw)
      rw [entryFound_cons_of_lookup e kw v w rest hkw hw,
        matchesAll_cons_of_lookup e kw v w rest hw]
      by_cases hv : w = v
      · rw [if_pos hv, if_pos hv,
          ih (fun p hp => hin p (List.mem_cons_of_mem _ hp))]
      · rw [if_neg hv, if_neg hv]

theorem find_cons_ok {V : Type} [DecidableEq V] (e : Entry V)
    (es : List (Entry V)) (criteria : List (String × V)) (b : Bool)
    (h : entryFound e criteria = .ok b) :
    find (e :: es) criteria =
      (match find es criteria with
       | .error err => .error err
       | .ok ms => .ok (if b then e :: ms else ms)) := by
  rw [find, h]

theorem find_cons_error {V : Type} [DecidableEq V] (e : Entry V)
    (es : List (Entry V)) (criteria : List (String × V)) (err : PyErr)
    (h : entryFound e criteria = .error err) :
    find (e :: es) criteria = .error err := by
  rw [find, h]

theorem find_of_entryFound {V : Type} [DecidableEq V]
    (entries : List (Entry V)) (criteria : List (String × V))
    (h : ∀ e ∈ entries,
      entryFound e criteria = .ok (matchesAll e criteria)) :
    find entries criteria =
      .ok (entries.filter (fun e => matchesAll e criteria)) := by
  induction entries with
  | nil => rfl
  | cons e rest ih =>
    rw [find_cons_ok e rest criteria (matchesAll e criteria)
        (h e (List.mem_cons_self _ _)),
      ih (fun x hx => h x (List.mem_cons_of_mem _ hx))]
    by_cases hm : matchesAll e criteria = true
    · simp [List.filter_cons, hm]
    · simp [List.filter_cons, hm]

theorem entryFound_unknown_after_prefix {V : Type} [DecidableEq V]
    (e : Entry V) (k : String) (v : V) (rest : List (String × V))
    (hk : k ∉ e.attributes)
    (hwf : ∀ a ∈ e.attributes, (e.vals.lookup a).isSome = true) :
    ∀ pre : List (String × V), (∀ kv ∈ pre, kv.1 ∈ e.attributes) →
      entryFound e (pre ++ (k, v) :: rest) =
        (if matchesAll e pre then .error .unknownAttribute
         else .ok false)
  | [], _ => by
    have hkerr : getitem e k = .error .unknownAttribute := by
      unfold getitem
      rw [if_neg (fun hc => hk (List.elem_iff.1 hc))]
    rw [List.nil_append, entryFound, hkerr,
      if_pos (show matchesAll e ([] : List (String × V)) = true from rfl)]
  | kv :: pre, hin => by
    cases kv with
    | mk kw w =>
      have hkw : kw ∈ e.attributes :=
        hin (kw, w) (List.mem_cons_self _ _)
      obtain ⟨u, hu⟩ := Option.isSome_iff_exists.1 (hwf kw hkw)
      rw [List.cons_append,
        entryFound_cons_of_lookup e kw w u (pre ++ (k, v) :: rest)
          hkw hu,
        matchesAll_cons_of_lookup e kw w u pre hu]
      by_cases hv : u = w
      · rw [if_pos hv, if_pos hv,
          entryFound_unknown_after_prefix e k v rest hk hwf pre
            (fun p hp => hin p (List.mem_cons_of_mem _ hp))]
      · rw [if_neg hv, if_neg hv, if_neg (by simp)]

/-- C4 amended: `find` with zero criteria returns all entries in
insertion order; when every criterion name is in the schema it returns
the ordered sublist of records whose value at each criterion name
equals the criterion value (the empty list, not an error, when none
match); when the criteria contain a name outside the schema,
`UnknownAttribute` propagates exactly when some stored record matches
every criterion preceding the first out-of-schema name — otherwise (in
particular on an empty collection, or when every record fails an
earlier criterion) `find` returns the empty list without error. -/
theorem find_conjunction_spec {V : Type} [DecidableEq V]
    (attrs : List String) (entries : List (Entry V))
    (criteria : List (String × V)) (hwf : bookWF attrs entries) :
    (criteria = [] → find entries criteria = .ok entries) ∧
    ((∀ kv ∈ criteria, kv.1 ∈ attrs) →
      find entries criteria =
        .ok (entries.filter (fun e => matchesAll e criteria))) ∧
    (∀ pre k v rest, criteria = pre ++ (k, v) :: rest →
      (∀ kv ∈ pre, kv.1 ∈ attrs) → k ∉ attrs →
      find entries criteria =
        (if entries.any (fun e => matchesAll e pre) then
          .error .unknownAttribute
        else .ok [])) := by
  refine ⟨?_, ?_, ?_⟩
  · intro hc
    subst hc
    rw [find_of_entryFound entries [] (fun e _ => rfl)]
    congr 1
    apply List.filter_eq_self.2
    intro e _
    rfl
  · intro hin
    apply find_of_entryFound
    intro e he
    obtain ⟨hea, hev⟩ := hwf e he
    refine entryFound_all_known e criteria
      (fun kv hkv => by rw [hea]; exact hin kv hkv)
      (fun a ha => hev a (by rw [hea] at ha; exact ha))
  · intro pre k v rest hcrit hpre hk
    subst hcrit
    induction entries with
    | nil => rfl
    | cons e es ih =>
      obtain ⟨hea, hev⟩ := hwf e (List.mem_cons_self _ _)
      have hfound := entryFound_unknown_after_prefix e k v rest
        (by rw [hea]; exact hk)
        (fun a ha => hev a (by rw [hea] at ha; exact ha)) pre
        (fun kv hkv => by rw [hea]; exact hpre kv hkv)
      have ihes := ih (fun x hx => hwf x (List.mem_cons_of_mem _ hx))
      by_cases hm : matchesAll e pre = true
      · have hef : entryFound e (pre ++ (k, v) :: rest) =
            .error .unknownAttribute := by
          rw [hfound, if_pos hm]
        rw [find_cons_error e es _ _ hef, List.any_cons, hm,
          Bool.true_or, if_pos rfl]
      · have hef : entryFound e (pre ++ (k, v) :: rest) =
            .ok false := by
          rw [hfound, if_neg hm]
        rw [find_cons_ok e es _ false hef, ihes, List.any_cons]
        simp only [Bool.not_eq_true] at hm
        rw [hm, Bool.false_or]
        by_cases hany : (es.any fun x => matchesAll x pre) = true
        · rw [if_pos hany]
        · rw [if_neg hany]
          rfl

/-- Witness for C4 amended: on the two-entry demo book, zero criteria
return both entries, `name='ana'` returns exactly the `ana` entry, and
`phone='9999'` returns the empty list. -/
theorem find_conjunction_spec_witness :
    find [demoAna, demoBob] ([] : List (String × String)) =
      .ok [demoAna, demoBob] ∧
    find [demoAna, demoBob] [("name", "ana")] = .ok [demoAna] ∧
    find [demoAna, demoBob] [("phone", "9999")] = .ok [] := by
  refine ⟨?_, ?_, ?_⟩
  · exact (find_conjunction_spec demoSchema [demoAna, demoBob] []
      (by decide)).1 rfl
  · rw [(find_conjunction_spec demoSchema [demoAna, demoBob]
      [("name", "ana")] (by decide)).2.1 (by decide)]
    rfl
  · rw [(find_conjunction_spec demoSchema [demoAna, demoBob]
      [("phone", "9999")] (by decide)).2.1 (by decide)]
    rfl

/-!
### Claim theorem: deep-copy isolation (C5)
-/

theorem getD_append_lt {A : Type} (l t : List A) (d : A) (i : Nat)
    (h : i < l.length) : (l ++ t).getD i d = l.getD i d := by
  rw [List.getD_eq_getElem?_getD, List.getD_eq_getElem?_getD,
    List.getElem?_append_left h]

theorem getD_set_ne {A : Type} (l : List A) (i j : Nat) (x d : A)
    (h : i ≠ j) : (l.set i x).getD j d = l.getD j d := by
  rw [List.getD_eq_getElem?_getD, List.getD_eq_getElem?_getD,
    List.getElem?_set_ne h]

theorem getD_append_length {A : Type} (l : List A) (x d : A) :
    (l ++ [x]).getD l.length d = x := by
  rw [List.getD_eq_getElem?_getD, List.getElem?_append_right (le_refl _)]
  simp

theorem viewVal_eq_of_lists (h h2 : Heap) (hl : h2.lists = h.lists)
    (v : AttrVal) : viewVal h2 v = viewVal h v := by
  cases v with
  | prim p => rfl
  | listRef a => simp [viewVal, hl]

theorem viewVal_extend (h h2 : Heap) (ext : List (List Prim))
    (hl : h2.lists = h.lists ++ ext) (v : AttrVal)
    (hv : ∀ a, v = AttrVal.listRef a → a < h.lists.length) :
    viewVal h2 v = viewVal h v := by
  cases v with
  | prim p => rfl
  | listRef a =>
    simp only [viewVal]
    rw [hl]
    exact congrArg ValView.list (getD_append_lt h.lists ext [] a (hv a rfl))

theorem mem_recListAddrs_iff (r : RecObj) (la : Nat) :
    la ∈ recListAddrs r ↔ ∃ p ∈ r.vals, p.2 = AttrVal.listRef la := by
  rw [recListAddrs, List.mem_filterMap]
  constructor
  · rintro ⟨p, hp, hf⟩
    refine ⟨p, hp, ?_⟩
    cases hv : p.2 with
    | prim q => rw [hv] at hf; simp at hf
    | listRef a0 =>
      rw [hv] at hf
      simp only [Option.some.injEq] at hf
      rw [hf]
  · rintro ⟨p, hp, hf⟩
    refine ⟨p, hp, ?_⟩
    rw [hf]

theorem viewRec_extend (h h2 : Heap) (extr : List RecObj)
    (ext : List (List Prim)) (hr : h2.recs = h.recs ++ extr)
    (hl : h2.lists = h.lists ++ ext) (a : Nat)
    (ha : a < h.recs.length)
    (hrefs : ∀ la ∈ recListAddrs (h.recs.getD a ⟨[]⟩),
      la < h.lists.length) :
    viewRec h2 a = viewRec h a := by
  rw [viewRec, viewRec, hr, getD_append_lt _ _ _ _ ha]
  apply List.map_congr_left
  intro p hp
  have : viewVal h2 p.2 = viewVal h p.2 := by
    apply viewVal_extend h h2 ext hl
    intro la hla
    exact hrefs la ((mem_recListAddrs_iff _ _).2 ⟨p, hp, hla⟩)
  rw [this]

theorem deepcopyVals_spec :
    ∀ (vs : List (String × AttrVal)) (h : Heap),
      (∀ p ∈ vs, ∀ a, p.2 = AttrVal.listRef a → a < h.lists.length) →
      (deepcopyVals h vs).1.recs = h.recs ∧
      (∃ ext, (deepcopyVals h vs).1.lists = h.lists ++ ext) ∧
      ((deepcopyVals h vs).2.map
          (fun p => (p.1, viewVal (deepcopyVals h vs).1 p.2))
        = vs.map (fun p => (p.1, viewVal h p.2))) ∧
      (∀ p ∈ (deepcopyVals h vs).2, ∀ a, p.2 = AttrVal.listRef a →
        h.lists.length ≤ a ∧ a < (deepcopyVals h vs).1.lists.length)
  | [], h, _ => by
    refine ⟨rfl, ⟨[], by simp [deepcopyVals]⟩, rfl, ?_⟩
    intro p hp
    simp [deepcopyVals] at hp
  | (k, v) :: rest, h, hv => by
    cases v with
    | prim q =>
      obtain ⟨ih1, ⟨ext, ih2⟩, ih3, ih4⟩ := deepcopyVals_spec rest h
        (fun p hp a ha => hv p (List.mem_cons_of_mem _ hp) a ha)
      simp only [deepcopyVals, deepcopyVal]
      refine ⟨ih1, ⟨ext, ih2⟩, ?_, ?_⟩
      · rw [List.map_cons, List.map_cons, ih3]
        rfl
      · intro p hp a ha
        rcases List.mem_cons.1 hp with heq | hp2
        · subst heq
          exact absurd ha (by simp)
        · exact ih4 p hp2 a ha
    | listRef la =>
      have hla : la < h.lists.length :=
        hv (k, AttrVal.listRef la) (List.mem_cons_self _ _) la rfl
      obtain ⟨ih1, ⟨ext, ih2⟩, ih3, ih4⟩ := deepcopyVals_spec rest
        { recs := h.recs, lists := h.lists ++ [h.lists.getD la []] }
        (fun p hp a ha => by
          have := hv p (List.mem_cons_of_mem _ hp) a ha
          simp only [List.length_append, List.length_singleton]
          omega)
      simp only [deepcopyVals, deepcopyVal]
      refine ⟨ih1, ?_, ?_, ?_⟩
      · refine ⟨h.lists.getD la [] :: ext, ?_⟩
        rw [ih2]
        simp only [List.append_assoc, List.singleton_append]
      · rw [List.map_cons, List.map_cons, ih3]
        have htail : List.map (fun p => (p.1, viewVal
              { recs := h.recs,
                lists := h.lists ++ [h.lists.getD la []] } p.2)) rest
            = List.map (fun p => (p.1, viewVal h p.2)) rest := by
          apply List.map_congr_left
          intro p hp
          have hvv : viewVal
              { recs := h.recs,
                lists := h.lists ++ [h.lists.getD la []] } p.2
              = viewVal h p.2 := by
            apply viewVal_extend h _ [h.lists.getD la []] rfl
            intro a ha
            exact hv p (List.mem_cons_of_mem _ hp) a ha
          rw [hvv]
        rw [htail]
        have hhead : viewVal (deepcopyVals
              { recs := h.recs,
                lists := h.lists ++ [h.lists.getD la []] } rest).1
              (AttrVal.listRef h.lists.length)
            = viewVal h (AttrVal.listRef la) := by
          simp only [viewVal]
          rw [ih2]
          rw [getD_append_lt _ ext [] h.lists.length
            (by simp only [List.length_append, List.length_singleton]
                omega)]
          rw [getD_append_length]
        rw [hhead]
      · intro p hp a ha
        rcases List.mem_cons.1 hp with heq | hp2
        · subst heq
          simp only at ha
          have haeq := AttrVal.listRef.inj ha
          constructor
          · omega
          · rw [ih2]
            simp only [List.length_append, List.length_singleton]
            omega
        · have := ih4 p hp2 a ha
          simp only [List.length_append, List.length_singleton] at this
          exact ⟨by omega, this.2⟩

theorem deepcopyRec_spec (h : Heap) (a : Nat)
    (hwf : ∀ la ∈ recListAddrs (h.recs.getD a ⟨[]⟩),
      la < h.lists.length) :
    (∃ r, (deepcopyRec h a).1.recs = h.recs ++ [r]) ∧
    (∃ ext, (deepcopyRec h a).1.lists = h.lists ++ ext) ∧
    (deepcopyRec h a).2 = h.recs.length ∧
    viewRec (deepcopyRec h a).1 (deepcopyRec h a).2 = viewRec h a ∧
    (∀ la ∈ recListAddrs ((deepcopyRec h a).1.recs.getD
        (deepcopyRec h a).2 ⟨[]⟩),
      h.lists.length ≤ la ∧ la < (deepcopyRec h a).1.lists.length) := by
  obtain ⟨s1, ⟨ext, s2⟩, s3, s4⟩ :=
    deepcopyVals_spec (h.recs.getD a ⟨[]⟩).vals h
      (fun p hp la hla => hwf la ((mem_recListAddrs_iff _ _).2 ⟨p, hp, hla⟩))
  simp only [deepcopyRec]
  generalize hD : deepcopyVals h (h.recs.getD a ⟨[]⟩).vals = D
  rw [hD] at s1 s2 s3 s4
  refine ⟨⟨⟨D.2⟩, ?_⟩, ⟨ext, ?_⟩, ?_, ?_, ?_⟩
  · show D.1.recs ++ [(⟨D.2⟩ : RecObj)] = h.recs ++ [(⟨D.2⟩ : RecObj)]
    rw [s1]
  · show D.1.lists = h.lists ++ ext
    exact s2
  · show D.1.recs.length = h.recs.length
    rw [s1]
  · rw [viewRec, viewRec]
    show ((D.1.recs ++ [(⟨D.2⟩ : RecObj)]).getD D.1.recs.length
      ⟨[]⟩).vals.map _ = _
    rw [getD_append_length]
    show D.2.map (fun p => (p.1,
      viewVal (⟨D.1.recs ++ [(⟨D.2⟩ : RecObj)], D.1.lists⟩ : Heap)
        p.2)) = _
    have hcg : D.2.map (fun p => (p.1,
        viewVal (⟨D.1.recs ++ [(⟨D.2⟩ : RecObj)], D.1.lists⟩ : Heap)
          p.2))
        = D.2.map (fun p => (p.1, viewVal D.1 p.2)) :=
      List.map_congr_left (fun p _ => by
        rw [viewVal_eq_of_lists D.1
          (⟨D.1.recs ++ [(⟨D.2⟩ : RecObj)], D.1.lists⟩ : Heap) rfl])
    rw [hcg, s3]
  · intro la hla
    rw [show ((⟨D.1.recs ++ [(⟨D.2⟩ : RecObj)], D.1.lists⟩ :
        Heap).recs.getD (D.1.recs.length) ⟨[]⟩) = (⟨D.2⟩ : RecObj) from
      getD_append_length _ _ _] at hla
    obtain ⟨p, hp, hpla⟩ := (mem_recListAddrs_iff _ _).1 hla
    exact s4 p hp la hpla

theorem deepcopyEntries_spec :
    ∀ (es : List Nat) (h : Heap),
      (∀ a ∈ es, a < h.recs.length ∧
        ∀ la ∈ recListAddrs (h.recs.getD a ⟨[]⟩), la < h.lists.length) →
      (∃ extr, (deepcopyEntries h es).1.recs = h.recs ++ extr) ∧
      (∃ ext, (deepcopyEntries h es).1.lists = h.lists ++ ext) ∧
      ((deepcopyEntries h es).2.map (viewRec (deepcopyEntries h es).1)
        = es.map (viewRec h)) ∧
      (∀ a1 ∈ (deepcopyEntries h es).2,
        h.recs.length ≤ a1 ∧ a1 < (deepcopyEntries h es).1.recs.length ∧
        ∀ la ∈ recListAddrs
            ((deepcopyEntries h es).1.recs.getD a1 ⟨[]⟩),
          h.lists.length ≤ la ∧
            la < (deepcopyEntries h es).1.lists.length)
  | [], h, _ => by
    refine ⟨⟨[], by simp [deepcopyEntries]⟩,
      ⟨[], by simp [deepcopyEntries]⟩, rfl, ?_⟩
    intro a1 ha1
    simp [deepcopyEntries] at ha1
  | a :: rest, h, hwf => by
    obtain ⟨⟨r, r_recs⟩, ⟨ext1, r_lists⟩, r_addr, r_view, r_fresh⟩ :=
      deepcopyRec_spec h a (hwf a (List.mem_cons_self _ _)).2
    have hwfrest : ∀ a2 ∈ rest, a2 < (deepcopyRec h a).1.recs.length ∧
        ∀ la ∈ recListAddrs ((deepcopyRec h a).1.recs.getD a2 ⟨[]⟩),
          la < (deepcopyRec h a).1.lists.length := by
      intro a2 ha2
      obtain ⟨h1, h2⟩ := hwf a2 (List.mem_cons_of_mem _ ha2)
      constructor
      · rw [r_recs]
        simp only [List.length_append, List.length_singleton]
        omega
      · intro la hla
        rw [r_recs, getD_append_lt _ _ _ _ h1] at hla
        rw [r_lists]
        simp only [List.length_append]
        have := h2 la hla
        omega
    obtain ⟨⟨extr, e_recs⟩, ⟨ext2, e_lists⟩, e_view, e_fresh⟩ :=
      deepcopyEntries_spec rest (deepcopyRec h a).1 hwfrest
    have haddr_lt : (deepcopyRec h a).2 <
        (deepcopyRec h a).1.recs.length := by
      rw [r_addr, r_recs]
      simp only [List.length_append, List.length_singleton]
      omega
    simp only [deepcopyEntries]
    refine ⟨?_, ?_, ?_, ?_⟩
    · refine ⟨[r] ++ extr, ?_⟩
      rw [e_recs, r_recs, List.append_assoc]
    · refine ⟨ext1 ++ ext2, ?_⟩
      rw [e_lists, r_lists, List.append_assoc]
    · rw [List.map_cons, List.map_cons]
      have hhead : viewRec (deepcopyEntries (deepcopyRec h a).1 rest).1
          (deepcopyRec h a).2 = viewRec h a := by
        rw [viewRec_extend (deepcopyRec h a).1 _ extr ext2 e_recs
          e_lists (deepcopyRec h a).2 haddr_lt
          (fun la hla => (r_fresh la hla).2)]
        exact r_view
      have htail : (deepcopyEntries (deepcopyRec h a).1 rest).2.map
          (viewRec (deepcopyEntries (deepcopyRec h a).1 rest).1)
          = rest.map (viewRec h) := by
        rw [e_view]
        apply List.map_congr_left
        intro a2 ha2
        obtain ⟨h1, h2⟩ := hwf a2 (List.mem_cons_of_mem _ ha2)
        exact viewRec_extend h _ [r] ext1 r_recs r_lists a2 h1 h2
      rw [hhead, htail]
    · intro a1 ha1
      rcases List.mem_cons.1 ha1 with heq | hmem
      · subst heq
        have hlen1 : (deepcopyRec h a).1.recs.length ≤
            (deepcopyEntries (deepcopyRec h a).1 rest).1.recs.length := by
          rw [e_recs]
          simp [List.length_append]
        refine ⟨by rw [r_addr], by omega, ?_⟩
        intro la hla
        rw [e_recs, getD_append_lt _ _ _ _ haddr_lt] at hla
        have := r_fresh la hla
        rw [e_lists]
        simp only [List.length_append]
        omega
      · obtain ⟨h1, h2, h3⟩ := e_fresh a1 hmem
        have hlen2 : h.recs.length ≤ (deepcopyRec h a).1.recs.length := by
          rw [r_recs]
          simp [List.length_append]
        have hlen3 : h.lists.length ≤ (deepcopyRec h a).1.lists.length := by
          rw [r_lists]
          simp [List.length_append]
        refine ⟨by omega, h2, ?_⟩
        intro la hla
        have := h3 la hla
        omega

theorem viewRec_setRecAttr_ne (h : Heap) (a a' : Nat)
    (name : String) (v : AttrVal) (hne : a ≠ a') :
    viewRec (setRecAttr h a name v) a' = viewRec h a' := by
  rw [viewRec, viewRec]
  have h1 : (setRecAttr h a name v).recs.getD a' ⟨[]⟩
      = h.recs.getD a' ⟨[]⟩ := by
    show (h.recs.set a _).getD a' ⟨[]⟩ = _
    exact getD_set_ne _ _ _ _ _ hne
  rw [h1]
  apply List.map_congr_left
  intro p _
  have h2 : viewVal (setRecAttr h a name v) p.2 = viewVal h p.2 :=
    viewVal_eq_of_lists h (setRecAttr h a name v) rfl p.2
  rw [h2]

theorem viewRec_setListObj_ne (h : Heap) (la : Nat) (xs : List Prim)
    (a : Nat)
    (hne : ∀ l0 ∈ recListAddrs (h.recs.getD a ⟨[]⟩), l0 ≠ la) :
    viewRec (setListObj h la xs) a = viewRec h a := by
  rw [viewRec, viewRec]
  have h1 : (setListObj h la xs).recs = h.recs := rfl
  rw [h1]
  apply List.map_congr_left
  intro p hp
  cases hp2 : p.2 with
  | prim q => rfl
  | listRef a0 =>
    have ha0 : a0 ≠ la :=
      hne a0 ((mem_recListAddrs_iff _ _).2 ⟨p, hp, hp2⟩)
    simp only [viewVal]
    have h3 : (setListObj h la xs).lists.getD a0 [] =
        h.lists.getD a0 [] := by
      show (h.lists.set la xs).getD a0 [] = _
      exact getD_set_ne _ _ _ _ _ (fun hc => ha0 hc.symm)
    rw [h3]

theorem mem_bookListAddrs_iff (h : Heap) (b : HBook) (la : Nat) :
    la ∈ bookListAddrs h b ↔
      ∃ a ∈ b.entries, la ∈ recListAddrs (h.recs.getD a ⟨[]⟩) := by
  rw [bookListAddrs, List.mem_flatten]
  constructor
  · rintro ⟨l, hl, hla⟩
    obtain ⟨a, ha, rfl⟩ := List.mem_map.1 hl
    exact ⟨a, ha, hla⟩
  · rintro ⟨a, ha, hla⟩
    exact ⟨recListAddrs (h.recs.getD a ⟨[]⟩),
      List.mem_map.2 ⟨a, ha, rfl⟩, hla⟩

/-- C5: `create_copy` (deep copy) produces a collection value-equal to
the source immediately after copying, and sharing no mutable state
with it: mutating any attribute of any record of the copy, or the
contents of any mutable list value reachable from the copy, leaves
every record of the source unchanged when dereferenced, and vice
versa. -/
theorem createCopy_isolation (h : Heap) (b : HBook) (hwf : wfBook h b)
    (h2 : Heap) (b2 : HBook) (hcc : createCopy h b = (h2, b2)) :
    viewBook h2 b2 = viewBook h b ∧
    viewBook h2 b = viewBook h b ∧
    (∀ a ∈ b2.entries, ∀ name v,
      viewBook (setRecAttr h2 a name v) b = viewBook h2 b) ∧
    (∀ a ∈ b.entries, ∀ name v,
      viewBook (setRecAttr h2 a name v) b2 = viewBook h2 b2) ∧
    (∀ la ∈ bookListAddrs h2 b2, ∀ xs,
      viewBook (setListObj h2 la xs) b = viewBook h2 b) ∧
    (∀ la ∈ bookListAddrs h2 b, ∀ xs,
      viewBook (setListObj h2 la xs) b2 = viewBook h2 b2) := by
  obtain ⟨⟨extr, srecs⟩, ⟨ext, slists⟩, sview, sfresh⟩ :=
    deepcopyEntries_spec b.entries h hwf
  unfold createCopy at hcc
  injection hcc with hh hb
  subst hh
  subst hb
  have hb2rec : ∀ a' ∈ b.entries,
      (deepcopyEntries h b.entries).1.recs.getD a' ⟨[]⟩
      = h.recs.getD a' ⟨[]⟩ := by
    intro a' ha'
    rw [srecs]
    exact getD_append_lt _ _ _ _ (hwf a' ha').1
  refine ⟨?_, ?_, ?_, ?_, ?_, ?_⟩
  · exact sview
  · rw [viewBook, viewBook]
    apply List.map_congr_left
    intro a' ha'
    exact viewRec_extend h _ extr ext srecs slists a'
      (hwf a' ha').1 (hwf a' ha').2
  · intro a ha name v
    rw [viewBook, viewBook]
    apply List.map_congr_left
    intro a' ha'
    apply viewRec_setRecAttr_ne
    have h1 : h.recs.length ≤ a := (sfresh a ha).1
    have h2 : a' < h.recs.length := (hwf a' ha').1
    omega
  · intro a ha name v
    rw [viewBook, viewBook]
    apply List.map_congr_left
    intro a' ha'
    apply viewRec_setRecAttr_ne
    have h1 : a < h.recs.length := (hwf a ha).1
    have h2 : h.recs.length ≤ a' := (sfresh a' ha').1
    omega
  · intro la hla xs
    obtain ⟨a1, ha1, hla1⟩ := (mem_bookListAddrs_iff _ _ _).1 hla
    have hge : h.lists.length ≤ la := ((sfresh a1 ha1).2.2 la hla1).1
    rw [viewBook, viewBook]
    apply List.map_congr_left
    intro a' ha'
    apply viewRec_setListObj_ne
    intro l0 hl0
    rw [hb2rec a' ha'] at hl0
    have : l0 < h.lists.length := (hwf a' ha').2 l0 hl0
    omega
  · intro la hla xs
    obtain ⟨a1, ha1, hla1⟩ := (mem_bookListAddrs_iff _ _ _).1 hla
    rw [hb2rec a1 ha1] at hla1
    have hlt : la < h.lists.length := (hwf a1 ha1).2 la hla1
    rw [viewBook, viewBook]
    apply List.map_congr_left
    intro a' ha'
    apply viewRec_setListObj_ne
    intro l0 hl0
    have : h.lists.length ≤ l0 := ((sfresh a' ha').2.2 l0 hl0).1
    omega

/-- Witness for C5: copying the one-record demo heap (whose record
holds a nested mutable list value) yields a value-equal book, and
overwriting an attribute of the copied record leaves the source
record's dereferenced contents unchanged. -/
theorem createCopy_isolation_witness :
    wfBook demoHeap demoHBook ∧
    viewBook (createCopy demoHeap demoHBook).1
        (createCopy demoHeap demoHBook).2
      = viewBook demoHeap demoHBook ∧
    (1 : Nat) ∈ (createCopy demoHeap demoHBook).2.entries ∧
    viewBook (setRecAttr (createCopy demoHeap demoHBook).1 1 "name"
        (.prim (.str "eve"))) demoHBook
      = viewBook (createCopy demoHeap demoHBook).1 demoHBook := by
  have h := createCopy_isolation demoHeap demoHBook (by decide)
    (createCopy demoHeap demoHBook).1 (createCopy demoHeap demoHBook).2
    rfl
  exact ⟨by decide, h.1, by decide,
    h.2.2.1 1 (by decide) "name" (.prim (.str "eve"))⟩
